import Mathlib

/-!
# Verification of `multi_key_map` (`src/lib.rs`)

A `MultiKeyMap<K, V>` stores a `key_map : HashMap<K, usize>` (the index
table) together with `values : Vec<V>` (the dense value array).  We embed
the structure shallowly: the hash map becomes an association list with
no duplicate keys (the well-formedness predicate `KeyNodup` below), the
vector becomes a `List`.  Each Rust method is translated into a pure
function; methods that mutate `self` return the new store together with
the Rust return value.  Rust `usize` indices become `Nat` (the code never
exercises `usize` overflow: indices are bounded by the vector length).
Where the Rust code would panic on an index-table entry that is out of
bounds (impossible for well-formed stores), the embedding totalises with
`Option`/identity behaviour; theorems about such operations carry the
well-formedness hypotheses that hold for every actual `HashMap`-backed
store.
-/

set_option autoImplicit false

namespace MultiKeyMapSpec

variable {K V : Type}

/-- Embedding of `HashMap<K, usize>::get`: the value of the (unique)
entry for key `k`, `none` if absent.  Mirrors `self.key_map.get(key)`. -/
def kmGet [DecidableEq K] (m : List (K × Nat)) (k : K) : Option Nat :=
  match m with
  | [] => none
  | (k', i) :: rest => if k' = k then some i else kmGet rest k

/-- Embedding of `HashMap<K, usize>::insert(k, i)`: replace the entry
for `k` in place if present, otherwise add a new entry. -/
def kmInsert [DecidableEq K] (m : List (K × Nat)) (k : K) (i : Nat) :
    List (K × Nat) :=
  match m with
  | [] => [(k, i)]
  | (k', j) :: rest =>
      if k' = k then (k, i) :: rest else (k', j) :: kmInsert rest k i

/-- Embedding of `HashMap<K, usize>::remove(k)`: drop the entry for `k`
(the first one; well-formed maps have at most one). -/
def kmErase [DecidableEq K] (m : List (K × Nat)) (k : K) : List (K × Nat) :=
  match m with
  | [] => []
  | (k', j) :: rest => if k' = k then rest else (k', j) :: kmErase rest k

/-- `MultiKeyMap::count_references`:
`self.key_map.values().filter(|&&i| i == index).count()`. -/
def count_references [DecidableEq K] (m : List (K × Nat)) (index : Nat) : Nat :=
  (m.filter (fun p => p.2 = index)).length

/-- The keys currently mapping to slot `index`, as collected by the
`iter().filter(...).map(|(k, _)| k.clone()).collect()` scans in
`remove_alias` and `remove`. -/
def keysAt [DecidableEq K] (m : List (K × Nat)) (index : Nat) : List K :=
  (m.filter (fun p => p.2 = index)).map Prod.fst

/-- The `for k in keys_to_remove { self.key_map.remove(&k); }` loop of
`MultiKeyMap::remove`. -/
def kmEraseAll [DecidableEq K] (m : List (K × Nat)) (ks : List K) :
    List (K × Nat) :=
  ks.foldl kmErase m

/-- The `for k in last_value_keys { self.key_map.insert(k, index); }`
repointing loop of `remove_alias` and `remove`. -/
def kmInsertAll [DecidableEq K] (m : List (K × Nat)) (ks : List K)
    (index : Nat) : List (K × Nat) :=
  ks.foldl (fun acc k => kmInsert acc k index) m

/-- Embedding of `Vec::swap_remove(i)`: move the last element into
position `i` and shorten the vector by one.  (Rust panics on an empty
vector / out-of-bounds `i`; the embedding is the identity there, a case
ruled out by well-formedness whenever the code calls it.) -/
def swapRemove (l : List V) (i : Nat) : List V :=
  match l.getLast? with
  | none => l
  | some last => (l.set i last).dropLast

/-- `MultiKeyMap<K, V>`: the key→slot index table plus the dense value
array. -/
structure MultiKeyMap (K V : Type) where
  key_map : List (K × Nat)
  values : List V

namespace MultiKeyMap

variable [DecidableEq K]

/-- `MultiKeyMap::new()`. -/
def new : MultiKeyMap K V := ⟨[], []⟩

/-- `MultiKeyMap::get`:
`self.key_map.get(key).and_then(|&index| self.values.get(index))`. -/
def get (m : MultiKeyMap K V) (key : K) : Option V :=
  (kmGet m.key_map key).bind fun index => m.values[index]?

/-- `MultiKeyMap::get_mut` resolves the key exactly as `get` does
(`self.key_map.get(key).and_then(|index| self.values.get_mut(*index))`);
the embedding returns the value a mutable borrow would point at. -/
def get_mut (m : MultiKeyMap K V) (key : K) : Option V :=
  (kmGet m.key_map key).bind fun index => m.values[index]?

/-- `MultiKeyMap::insert`: push `value` onto `values`, map `key` to the
fresh index (`values.len()` before the push). -/
def insert (m : MultiKeyMap K V) (key : K) (value : V) : MultiKeyMap K V :=
  { key_map := kmInsert m.key_map key m.values.length
    values := m.values ++ [value] }

/-- `MultiKeyMap::insert_alias`: reject self-aliasing, otherwise map
`al` to `key`'s slot and return the reference count computed *after*
the insertion.  The pair is (updated store, Rust return value). -/
def insert_alias (m : MultiKeyMap K V) (key : K) (al : K) :
    MultiKeyMap K V × Option Nat :=
  if key = al then (m, none)
  else
    match kmGet m.key_map key with
    | some index =>
        let km := kmInsert m.key_map al index
        (⟨km, m.values⟩, some (count_references km index))
    | none => (m, none)

/-- `MultiKeyMap::remove_alias`: drop `al` from the index table, count
the remaining references of its slot; if none remain, `swap_remove` the
value and repoint every key of the displaced last slot. -/
def remove_alias (m : MultiKeyMap K V) (al : K) :
    MultiKeyMap K V × Option Nat :=
  match kmGet m.key_map al with
  | some index =>
      let km := kmErase m.key_map al
      let remaining := count_references km index
      if remaining = 0 then
        let vals := swapRemove m.values index
        let km2 :=
          if index ≠ vals.length then
            kmInsertAll km (keysAt km vals.length) index
          else km
        (⟨km2, vals⟩, some remaining)
      else
        (⟨km, m.values⟩, some remaining)
  | none => (m, none)

/-- `MultiKeyMap::remove`: `swap_remove` the value at `key`'s slot,
remove *every* key mapping to that slot from the index table, then
repoint the keys of the displaced last slot.  The returned value is the
one `swap_remove` hands back (`values[index]`). -/
def remove (m : MultiKeyMap K V) (key : K) : MultiKeyMap K V × Option V :=
  match kmGet m.key_map key with
  | some index =>
      let value := m.values[index]?
      let vals := swapRemove m.values index
      let km1 := kmEraseAll m.key_map (keysAt m.key_map index)
      let km2 :=
        if index ≠ vals.length then
          kmInsertAll km1 (keysAt km1 vals.length) index
        else km1
      (⟨km2, vals⟩, value)
  | none => (m, none)

/-- `MultiKeyMap::aliases`: all keys mapping to `key`'s slot. -/
def aliases (m : MultiKeyMap K V) (key : K) : Option (List K) :=
  (kmGet m.key_map key).map fun index => keysAt m.key_map index

/-- `MultiKeyMap::contains_key`. -/
def contains_key (m : MultiKeyMap K V) (key : K) : Bool :=
  (kmGet m.key_map key).isSome

/-- `MultiKeyMap::len`: the number of values (slots). -/
def len (m : MultiKeyMap K V) : Nat :=
  m.values.length

/-- `MultiKeyMap::is_empty`. -/
def is_empty (m : MultiKeyMap K V) : Bool :=
  m.values.isEmpty

/-- `MultiKeyMap::clear`. -/
def clear (_ : MultiKeyMap K V) : MultiKeyMap K V := ⟨[], []⟩

/-- The `PartialEq` implementation: equal value counts, and every entry
`(key, index)` of `self.key_map` matched in `other` with an equal value.
`self.values[index] != other.values[other_index]` is an (in-bounds, for
well-formed stores) panicking index; the embedding reads through
`getElem?` and treats an out-of-bounds read as a mismatch. -/
def beq [DecidableEq V] (a b : MultiKeyMap K V) : Bool :=
  if a.values.length ≠ b.values.length then false
  else
    a.key_map.all fun p =>
      match kmGet b.key_map p.1 with
      | some j =>
          match a.values[p.2]?, b.values[j]? with
          | some x, some y => x = y
          | _, _ => false
      | none => false

end MultiKeyMap

/-! ## Well-formedness

Every store whose index table is backed by an actual `HashMap` has
pairwise-distinct keys; the public API additionally keeps every index
in bounds (proved below as claim C9). -/

/-- The association list has no duplicated key (true of every
`HashMap` image). -/
def KeyNodup (m : List (K × Nat)) : Prop :=
  (m.map Prod.fst).Nodup

/-- Every index-table entry points into the dense array. -/
def InBounds (m : MultiKeyMap K V) : Prop :=
  ∀ p ∈ m.key_map, p.2 < m.values.length

/-- Every slot is referenced by at least one key. -/
def Covered (m : MultiKeyMap K V) : Prop :=
  ∀ i < m.values.length, ∃ p ∈ m.key_map, p.2 = i

instance [DecidableEq K] (m : List (K × Nat)) : Decidable (KeyNodup m) := by
  unfold KeyNodup; infer_instance

instance [DecidableEq K] (m : MultiKeyMap K V) : Decidable (InBounds m) := by
  unfold InBounds; infer_instance

instance [DecidableEq K] (m : MultiKeyMap K V) : Decidable (Covered m) := by
  unfold Covered; infer_instance

/-- The stores reachable from `MultiKeyMap::new()` through the public
mutating operations (`insert`, `insert_alias`, `remove_alias`, `remove`,
`clear`). -/
inductive Reachable [DecidableEq K] : MultiKeyMap K V → Prop where
  | new : Reachable .new
  | insert {m : MultiKeyMap K V} (k : K) (v : V) :
      Reachable m → Reachable (m.insert k v)
  | insert_alias {m : MultiKeyMap K V} (k al : K) :
      Reachable m → Reachable (m.insert_alias k al).1
  | remove_alias {m : MultiKeyMap K V} (al : K) :
      Reachable m → Reachable (m.remove_alias al).1
  | remove {m : MultiKeyMap K V} (k : K) :
      Reachable m → Reachable (m.remove k).1
  | clear {m : MultiKeyMap K V} :
      Reachable m → Reachable m.clear

/-- The stores reachable from `MultiKeyMap::new()` through `insert`,
`insert_alias`, `remove_alias` and `remove` when `insert` is only
called with a key that is not yet present and `insert_alias` only with
an alias that is not yet present (no silent overwriting). -/
inductive ReachableFresh [DecidableEq K] : MultiKeyMap K V → Prop where
  | new : ReachableFresh .new
  | insert {m : MultiKeyMap K V} (k : K) (v : V) :
      ReachableFresh m → kmGet m.key_map k = none →
      ReachableFresh (m.insert k v)
  | insert_alias {m : MultiKeyMap K V} (k al : K) :
      ReachableFresh m → kmGet m.key_map al = none →
      ReachableFresh (m.insert_alias k al).1
  | remove_alias {m : MultiKeyMap K V} (al : K) :
      ReachableFresh m → ReachableFresh (m.remove_alias al).1
  | remove {m : MultiKeyMap K V} (k : K) :
      ReachableFresh m → ReachableFresh (m.remove k).1

/-! ## Lemmas on the index-table primitives -/

section KmLemmas

variable [DecidableEq K]

theorem kmGet_kmInsert_self (m : List (K × Nat)) (k : K) (i : Nat) :
    kmGet (kmInsert m k i) k = some i := by
  induction m with
  | nil => simp [kmInsert, kmGet]
  | cons p rest ih =>
      obtain ⟨k', j⟩ := p
      by_cases h : k' = k <;> simp [kmInsert, kmGet, h, ih]

theorem kmGet_kmInsert_ne (m : List (K × Nat)) {k k'' : K} (i : Nat)
    (h : k'' ≠ k) : kmGet (kmInsert m k i) k'' = kmGet m k'' := by
  have hne : ¬k = k'' := fun h' => h h'.symm
  induction m with
  | nil => simp [kmInsert, kmGet, hne]
  | cons p rest ih =>
      obtain ⟨k', j⟩ := p
      by_cases hk : k' = k
      · subst hk
        simp [kmInsert, kmGet, hne]
      · simp [kmInsert, kmGet, hk, ih]

theorem mem_of_mem_kmInsert {m : List (K × Nat)} {k : K} {i : Nat}
    {p : K × Nat} (hp : p ∈ kmInsert m k i) : p = (k, i) ∨ p ∈ m := by
  induction m with
  | nil => simpa [kmInsert] using hp
  | cons q rest ih =>
      obtain ⟨k', j⟩ := q
      by_cases h : k' = k
      · simp only [kmInsert, if_pos h, List.mem_cons] at hp
        rcases hp with h' | h'
        · exact Or.inl h'
        · exact Or.inr (List.mem_cons_of_mem _ h')
      · simp only [kmInsert, if_neg h, List.mem_cons] at hp
        rcases hp with h' | h'
        · exact Or.inr (h' ▸ List.mem_cons_self _ _)
        · rcases ih h' with h'' | h''
          · exact Or.inl h''
          · exact Or.inr (List.mem_cons_of_mem _ h'')

theorem kmInsert_of_kmGet_none {m : List (K × Nat)} {k : K} (i : Nat)
    (h : kmGet m k = none) : kmInsert m k i = m ++ [(k, i)] := by
  induction m with
  | nil => simp [kmInsert]
  | cons p rest ih =>
      obtain ⟨k', j⟩ := p
      by_cases hk : k' = k
      · simp [kmGet, hk] at h
      · simp only [kmGet, if_neg hk] at h
        simp [kmInsert, hk, ih h]

theorem fst_mem_of_mem_kmInsert {m : List (K × Nat)} {k : K} {i : Nat}
    {x : K} (hx : x ∈ (kmInsert m k i).map Prod.fst) :
    x = k ∨ x ∈ m.map Prod.fst := by
  simp only [List.mem_map] at hx
  obtain ⟨p, hp, hpx⟩ := hx
  rcases mem_of_mem_kmInsert hp with h | h
  · exact Or.inl (by simp [← hpx, h])
  · exact Or.inr (by simp only [List.mem_map]; exact ⟨p, h, hpx⟩)

theorem keyNodup_kmInsert {m : List (K × Nat)} (k : K) (i : Nat)
    (h : KeyNodup m) : KeyNodup (kmInsert m k i) := by
  induction m with
  | nil => simp [kmInsert, KeyNodup]
  | cons p rest ih =>
      obtain ⟨k', j⟩ := p
      simp only [KeyNodup, List.map_cons, List.nodup_cons] at h
      by_cases hk : k' = k
      · subst hk
        simpa [kmInsert, KeyNodup] using h
      · have h' := ih h.2
        simp only [kmInsert, if_neg hk, KeyNodup, List.map_cons,
          List.nodup_cons]
        refine ⟨fun hmem => ?_, h'⟩
        rcases fst_mem_of_mem_kmInsert hmem with h'' | h''
        · exact hk h''
        · exact h.1 h''

theorem kmErase_sublist (m : List (K × Nat)) (k : K) :
    List.Sublist (kmErase m k) m := by
  induction m with
  | nil => simp [kmErase]
  | cons p rest ih =>
      obtain ⟨k', j⟩ := p
      by_cases h : k' = k
      · simp only [kmErase, if_pos h]
        exact List.sublist_cons_self _ _
      · simp only [kmErase, if_neg h]
        exact ih.cons₂ (k', j)

theorem keyNodup_kmErase {m : List (K × Nat)} (k : K) (h : KeyNodup m) :
    KeyNodup (kmErase m k) :=
  List.Nodup.sublist (List.Sublist.map Prod.fst (kmErase_sublist m k)) h

theorem kmGet_kmErase_ne (m : List (K × Nat)) {k k'' : K}
    (h : k'' ≠ k) : kmGet (kmErase m k) k'' = kmGet m k'' := by
  induction m with
  | nil => simp [kmErase]
  | cons p rest ih =>
      obtain ⟨k', j⟩ := p
      by_cases hk : k' = k
      · subst hk
        have : ¬k' = k'' := fun h' => h h'.symm
        simp [kmErase, kmGet, this]
      · simp [kmErase, kmGet, hk, ih]

theorem kmErase_eq_filter {m : List (K × Nat)} (k : K) (h : KeyNodup m) :
    kmErase m k = m.filter fun p => p.1 ≠ k := by
  induction m with
  | nil => simp [kmErase]
  | cons p rest ih =>
      obtain ⟨k', j⟩ := p
      simp only [KeyNodup, List.map_cons, List.nodup_cons] at h
      by_cases hk : k' = k
      · subst hk
        have hrest : rest.filter (fun p => p.1 ≠ k') = rest :=
          List.filter_eq_self.2 fun p hp => by
            simp only [ne_eq, decide_eq_true_eq]
            exact fun h' => h.1 (h' ▸ List.mem_map_of_mem Prod.fst hp)
        rw [List.filter_cons_of_neg (by simp), hrest]
        simp [kmErase]
      · rw [List.filter_cons_of_pos (by simp [hk])]
        simp only [kmErase, if_neg hk]
        rw [ih h.2]

theorem kmGet_eq_none_iff {m : List (K × Nat)} {k : K} :
    kmGet m k = none ↔ ∀ p ∈ m, p.1 ≠ k := by
  induction m with
  | nil => simp [kmGet]
  | cons p rest ih =>
      obtain ⟨k', j⟩ := p
      by_cases hk : k' = k <;> simp [kmGet, hk, ih]

theorem mem_of_kmGet_eq_some {m : List (K × Nat)} {k : K} {i : Nat}
    (h : kmGet m k = some i) : (k, i) ∈ m := by
  induction m with
  | nil => simp [kmGet] at h
  | cons p rest ih =>
      obtain ⟨k', j⟩ := p
      by_cases hk : k' = k
      · simp only [kmGet, if_pos hk, Option.some.injEq] at h
        simp [hk, h]
      · simp only [kmGet, if_neg hk] at h
        exact List.mem_cons_of_mem _ (ih h)

theorem kmGet_eq_some_of_mem {m : List (K × Nat)} {k : K} {i : Nat}
    (hm : (k, i) ∈ m) (h : KeyNodup m) : kmGet m k = some i := by
  induction m with
  | nil => simp at hm
  | cons p rest ih =>
      obtain ⟨k', j⟩ := p
      simp only [KeyNodup, List.map_cons, List.nodup_cons] at h
      rcases List.mem_cons.1 hm with h' | h'
      · injection h' with hk hi
        simp [kmGet, hk, hi]
      · have hk : ¬k' = k := by
          intro hkk
          exact h.1 (hkk ▸ List.mem_map_of_mem Prod.fst h')
        simp [kmGet, hk, ih h' h.2]

theorem count_references_eq_zero_iff {m : List (K × Nat)} {i : Nat} :
    count_references m i = 0 ↔ ∀ p ∈ m, p.2 ≠ i := by
  simp [count_references, List.length_eq_zero, List.filter_eq_nil_iff]

theorem one_le_count_references_iff {m : List (K × Nat)} {i : Nat} :
    1 ≤ count_references m i ↔ ∃ p ∈ m, p.2 = i := by
  rw [Nat.one_le_iff_ne_zero, ne_eq, count_references_eq_zero_iff]
  push_neg
  rfl

theorem mem_keysAt {m : List (K × Nat)} {i : Nat} {x : K} :
    x ∈ keysAt m i ↔ ∃ p ∈ m, p.1 = x ∧ p.2 = i := by
  simp only [keysAt, List.mem_map, List.mem_filter, decide_eq_true_eq]
  constructor
  · rintro ⟨p, ⟨hp, hpi⟩, hpx⟩
    exact ⟨p, hp, hpx, hpi⟩
  · rintro ⟨p, hp, hpx, hpi⟩
    exact ⟨p, ⟨hp, hpi⟩, hpx⟩

theorem fst_mem_keysAt_iff {m : List (K × Nat)} {i : Nat}
    (h : KeyNodup m) {p : K × Nat} (hp : p ∈ m) :
    p.1 ∈ keysAt m i ↔ p.2 = i := by
  rw [mem_keysAt]
  constructor
  · rintro ⟨q, hq, hqp, hqi⟩
    have h' : (m.map Prod.fst).Nodup := h
    have hqp' : q = p := List.inj_on_of_nodup_map h' hq hp hqp
    exact hqp' ▸ hqi
  · intro hpi
    exact ⟨p, hp, rfl, hpi⟩

theorem kmEraseAll_eq_filter {m : List (K × Nat)} {ks : List K}
    (h : KeyNodup m) :
    kmEraseAll m ks = m.filter fun p => p.1 ∉ ks := by
  induction ks generalizing m with
  | nil => simp [kmEraseAll]
  | cons k ks ih =>
      have h1 : kmEraseAll m (k :: ks) = kmEraseAll (kmErase m k) ks := rfl
      rw [h1, ih (keyNodup_kmErase k h), kmErase_eq_filter k h,
        List.filter_filter]
      refine List.filter_congr fun p hp => ?_
      by_cases h1 : p.1 = k <;> by_cases h2 : p.1 ∈ ks <;>
        simp [h1, h2]

theorem kmInsert_eq_map_of_mem {m : List (K × Nat)} {k : K} (i : Nat)
    (h : KeyNodup m) (hk : k ∈ m.map Prod.fst) :
    kmInsert m k i = m.map fun p => if p.1 = k then (k, i) else p := by
  induction m with
  | nil => simp at hk
  | cons q rest ih =>
      obtain ⟨k', j⟩ := q
      simp only [KeyNodup, List.map_cons, List.nodup_cons] at h
      by_cases hkk : k' = k
      · subst hkk
        have hrest : rest.map (fun p => if p.1 = k' then (k', i) else p)
            = rest := by
          have := List.map_congr_left (l := rest)
            (f := fun p : K × Nat => if p.1 = k' then (k', i) else p)
            (g := id) fun p hp => by
              have : ¬p.1 = k' := fun h' =>
                h.1 (h' ▸ List.mem_map_of_mem Prod.fst hp)
              simp [this]
          rw [this, List.map_id]
        simp [kmInsert, hrest]
      · have hk' : k ∈ rest.map Prod.fst := by
          rcases List.mem_cons.1 hk with h' | h'
          · exact absurd h'.symm hkk
          · exact h'
        simp only [kmInsert, if_neg hkk, List.map_cons, if_neg hkk,
          ih h.2 hk']

theorem kmInsertAll_eq_map {m : List (K × Nat)} {ks : List K} (i : Nat)
    (h : KeyNodup m) (hks : ∀ k ∈ ks, k ∈ m.map Prod.fst) :
    kmInsertAll m ks i = m.map fun p => if p.1 ∈ ks then (p.1, i) else p := by
  induction ks generalizing m with
  | nil => simp [kmInsertAll]
  | cons k ks ih =>
      have h1 : kmInsertAll m (k :: ks) i
          = kmInsertAll (kmInsert m k i) ks i := rfl
      rw [h1, kmInsert_eq_map_of_mem i h (hks k (List.mem_cons_self k ks))]
      have hfst : (m.map fun p => if p.1 = k then (k, i) else p).map Prod.fst
          = m.map Prod.fst := by
        rw [List.map_map]
        refine List.map_congr_left fun p hp => ?_
        by_cases h' : p.1 = k <;> simp [h', Function.comp]
      have hnd : KeyNodup (m.map fun p => if p.1 = k then (k, i) else p) := by
        unfold KeyNodup
        rw [hfst]
        exact h
      have hks' : ∀ k' ∈ ks,
          k' ∈ (m.map fun p => if p.1 = k then (k, i) else p).map Prod.fst := by
        rw [hfst]
        exact fun k' hk' => hks k' (List.mem_cons_of_mem _ hk')
      rw [ih hnd hks', List.map_map]
      refine List.map_congr_left fun p hp => ?_
      by_cases h1 : p.1 = k <;> by_cases h2 : p.1 ∈ ks <;>
        by_cases h3 : k ∈ ks <;>
          simp [h1, h2, h3, Function.comp, List.mem_cons]

/-- The repointing scan of `remove_alias`/`remove`: under key uniqueness
it rewrites exactly the entries whose slot is `src` to slot `dst`. -/
theorem repoint_eq_map {m : List (K × Nat)} {src : Nat} (dst : Nat)
    (h : KeyNodup m) :
    kmInsertAll m (keysAt m src) dst
      = m.map fun p => (p.1, if p.2 = src then dst else p.2) := by
  have hks : ∀ k ∈ keysAt m src, k ∈ m.map Prod.fst := by
    intro k hk
    rcases mem_keysAt.1 hk with ⟨p, hp, hpx, _⟩
    exact hpx ▸ List.mem_map_of_mem Prod.fst hp
  rw [kmInsertAll_eq_map dst h hks]
  refine List.map_congr_left fun p hp => ?_
  by_cases h2 : p.2 = src
  · rw [if_pos ((fst_mem_keysAt_iff h hp).2 h2), if_pos h2]
  · rw [if_neg fun hmem => h2 ((fst_mem_keysAt_iff h hp).1 hmem), if_neg h2]

theorem kmGet_map_repoint (m : List (K × Nat)) (src dst : Nat) (k : K) :
    kmGet (m.map fun p => (p.1, if p.2 = src then dst else p.2)) k
      = (kmGet m k).map fun j => if j = src then dst else j := by
  induction m with
  | nil => simp [kmGet]
  | cons p rest ih =>
      obtain ⟨k', j⟩ := p
      by_cases hk : k' = k <;> simp [kmGet, hk, ih]

end KmLemmas

theorem keyNodup_map_repoint {m : List (K × Nat)} (src dst : Nat)
    (h : KeyNodup m) :
    KeyNodup (m.map fun p => (p.1, if p.2 = src then dst else p.2)) := by
  unfold KeyNodup
  rw [List.map_map]
  exact h

theorem keyNodup_filter {m : List (K × Nat)} (f : K × Nat → Bool)
    (h : KeyNodup m) : KeyNodup (m.filter f) :=
  List.Nodup.sublist (List.Sublist.map Prod.fst (List.filter_sublist m)) h

/-! ## Lemmas on `Vec::swap_remove` -/

section SwapRemoveLemmas

theorem length_swapRemove {l : List V} (i : Nat) (h : l ≠ []) :
    (swapRemove l i).length = l.length - 1 := by
  unfold swapRemove
  cases hl : l.getLast? with
  | none => exact absurd (List.getLast?_eq_none_iff.1 hl) h
  | some last => simp

theorem getElem?_swapRemove {l : List V} {i j : Nat} (hi : i < l.length)
    (hj : j < l.length - 1) :
    (swapRemove l i)[j]? = if j = i then l[l.length - 1]? else l[j]? := by
  have hne : l ≠ [] := by
    intro h
    subst h
    simp at hi
  unfold swapRemove
  cases hl : l.getLast? with
  | none => exact absurd (List.getLast?_eq_none_iff.1 hl) hne
  | some last =>
      have hlast : l[l.length - 1]? = some last := by
        rw [← List.getLast?_eq_getElem? l, hl]
      show ((l.set i last).dropLast)[j]?
          = if j = i then l[l.length - 1]? else l[j]?
      rw [List.dropLast_eq_take, List.length_set, List.getElem?_take,
        if_pos hj]
      by_cases hij : j = i
      · subst hij
        rw [if_pos rfl, hlast, List.getElem?_set_eq_of_lt last hi]
      · rw [if_neg hij, List.getElem?_set_ne fun h => hij h.symm]

end SwapRemoveLemmas

/-! ## Lookup through a filtered index table -/

section FilterLemmas

variable [DecidableEq K]

theorem kmGet_filter_of_none {m : List (K × Nat)} {k : K}
    (f : K × Nat → Bool) (hget : kmGet m k = none) :
    kmGet (m.filter f) k = none := by
  rw [kmGet_eq_none_iff] at hget ⊢
  exact fun p hp => hget p (List.mem_of_mem_filter hp)

theorem kmGet_filter_of_pred {m : List (K × Nat)} {k : K} {j : Nat}
    {f : K × Nat → Bool} (h : KeyNodup m) (hget : kmGet m k = some j)
    (hf : f (k, j) = true) : kmGet (m.filter f) k = some j :=
  kmGet_eq_some_of_mem
    (List.mem_filter.2 ⟨mem_of_kmGet_eq_some hget, hf⟩)
    (keyNodup_filter f h)

theorem kmGet_filter_of_not_pred {m : List (K × Nat)} {k : K} {j : Nat}
    {f : K × Nat → Bool} (h : KeyNodup m) (hget : kmGet m k = some j)
    (hf : f (k, j) = false) : kmGet (m.filter f) k = none := by
  rw [kmGet_eq_none_iff]
  intro p hp hpk
  have hm : p ∈ m := List.mem_of_mem_filter hp
  have h' : (m.map Prod.fst).Nodup := h
  have hpe : p = (k, j) :=
    List.inj_on_of_nodup_map h' hm (mem_of_kmGet_eq_some hget) hpk
  have : f p = true := (List.mem_filter.1 hp).2
  rw [hpe, hf] at this
  exact Bool.false_ne_true this

/-- Removing every key of slot `index` (the loop of `remove`) filters
the table down to the entries of the other slots. -/
theorem kmEraseAll_keysAt_eq_filter {m : List (K × Nat)} {i : Nat}
    (h : KeyNodup m) :
    kmEraseAll m (keysAt m i) = m.filter fun p => p.2 ≠ i := by
  rw [kmEraseAll_eq_filter h]
  refine List.filter_congr fun p hp => ?_
  by_cases h2 : p.2 = i
  · have hmem : p.1 ∈ keysAt m i := (fst_mem_keysAt_iff h hp).2 h2
    simp [hmem, h2]
  · have hmem : p.1 ∉ keysAt m i := fun hm => h2 ((fst_mem_keysAt_iff h hp).1 hm)
    simp [hmem, h2]

end FilterLemmas

/-! ## Branch characterisations of the mutating operations -/

section BranchLemmas

variable [DecidableEq K]

theorem insert_alias_self (m : MultiKeyMap K V) (k : K) :
    m.insert_alias k k = (m, none) := by
  simp [MultiKeyMap.insert_alias]

theorem insert_alias_none {m : MultiKeyMap K V} {k : K} (al : K)
    (h : kmGet m.key_map k = none) : m.insert_alias k al = (m, none) := by
  by_cases hk : k = al <;> simp [MultiKeyMap.insert_alias, hk, h]

theorem insert_alias_some {m : MultiKeyMap K V} {k al : K} {index : Nat}
    (hne : k ≠ al) (h : kmGet m.key_map k = some index) :
    m.insert_alias k al
      = (⟨kmInsert m.key_map al index, m.values⟩,
          some (count_references (kmInsert m.key_map al index) index)) := by
  simp [MultiKeyMap.insert_alias, hne, h]

theorem remove_alias_none {m : MultiKeyMap K V} {al : K}
    (h : kmGet m.key_map al = none) : m.remove_alias al = (m, none) := by
  simp [MultiKeyMap.remove_alias, h]

theorem remove_alias_pos {m : MultiKeyMap K V} {al : K} {index : Nat}
    (h : kmGet m.key_map al = some index)
    (hc : count_references (kmErase m.key_map al) index ≠ 0) :
    m.remove_alias al
      = (⟨kmErase m.key_map al, m.values⟩,
          some (count_references (kmErase m.key_map al) index)) := by
  simp [MultiKeyMap.remove_alias, h, hc]

theorem remove_alias_zero {m : MultiKeyMap K V} {al : K} {index : Nat}
    (h : kmGet m.key_map al = some index)
    (hc : count_references (kmErase m.key_map al) index = 0) :
    m.remove_alias al
      = (⟨if index ≠ (swapRemove m.values index).length then
            kmInsertAll (kmErase m.key_map al)
              (keysAt (kmErase m.key_map al) (swapRemove m.values index).length)
              index
          else kmErase m.key_map al,
          swapRemove m.values index⟩, some 0) := by
  simp [MultiKeyMap.remove_alias, h, hc]

theorem remove_none {m : MultiKeyMap K V} {k : K}
    (h : kmGet m.key_map k = none) : m.remove k = (m, none) := by
  simp [MultiKeyMap.remove, h]

theorem remove_some {m : MultiKeyMap K V} {k : K} {index : Nat}
    (h : kmGet m.key_map k = some index) :
    m.remove k
      = (⟨if index ≠ (swapRemove m.values index).length then
            kmInsertAll (kmEraseAll m.key_map (keysAt m.key_map index))
              (keysAt (kmEraseAll m.key_map (keysAt m.key_map index))
                (swapRemove m.values index).length)
              index
          else kmEraseAll m.key_map (keysAt m.key_map index),
          swapRemove m.values index⟩, m.values[index]?) := by
  simp [MultiKeyMap.remove, h]

end BranchLemmas

/-! ## The compaction step

After a removal has vacated slot `index` (no entry of the post-removal
table `km` points at it any more), both `remove_alias` and `remove`
compact: `swap_remove` on the dense array, then repoint the keys of the
displaced last slot.  The lemmas below describe the resulting table
`km2 = if index ≠ (swapRemove values index).length then
kmInsertAll km (keysAt km (swapRemove values index).length) index else km`. -/

section CompactLemmas

variable [DecidableEq K]

theorem compact_kmGet {km : List (K × Nat)} {values : List V} {index : Nat}
    (hnd : KeyNodup km) (hidx : index < values.length)
    (hzero : ∀ p ∈ km, p.2 ≠ index) (k : K) :
    kmGet (if index ≠ (swapRemove values index).length then
        kmInsertAll km (keysAt km (swapRemove values index).length) index
      else km) k
      = (kmGet km k).map fun j => if j = values.length - 1 then index else j := by
  have hne : values ≠ [] := by
    intro h
    rw [h] at hidx
    simp at hidx
  have hlen : (swapRemove values index).length = values.length - 1 :=
    length_swapRemove index hne
  rw [hlen]
  by_cases hcond : index ≠ values.length - 1
  · rw [if_pos hcond, repoint_eq_map index hnd, kmGet_map_repoint]
  · rw [if_neg hcond]
    push_neg at hcond
    cases hget : kmGet km k with
    | none => simp
    | some j =>
        have hj : j ≠ values.length - 1 := by
          have := hzero _ (mem_of_kmGet_eq_some hget)
          simpa [← hcond] using this
        simp [hj]

theorem compact_keyNodup {km : List (K × Nat)} {values : List V}
    {index : Nat} (hnd : KeyNodup km) :
    KeyNodup (if index ≠ (swapRemove values index).length then
        kmInsertAll km (keysAt km (swapRemove values index).length) index
      else km) := by
  by_cases hcond : index ≠ (swapRemove values index).length
  · rw [if_pos hcond, repoint_eq_map index hnd]
    exact keyNodup_map_repoint _ index hnd
  · rwa [if_neg hcond]

theorem compact_inBounds {km : List (K × Nat)} {values : List V}
    {index : Nat} (hnd : KeyNodup km)
    (hb : ∀ p ∈ km, p.2 < values.length) (hidx : index < values.length)
    (hzero : ∀ p ∈ km, p.2 ≠ index) :
    ∀ p ∈ (if index ≠ (swapRemove values index).length then
        kmInsertAll km (keysAt km (swapRemove values index).length) index
      else km), p.2 < (swapRemove values index).length := by
  have hne : values ≠ [] := by
    intro h
    rw [h] at hidx
    simp at hidx
  have hlen : (swapRemove values index).length = values.length - 1 :=
    length_swapRemove index hne
  rw [hlen]
  by_cases hcond : index ≠ values.length - 1
  · rw [if_pos hcond, repoint_eq_map index hnd]
    rintro p hp
    rcases List.mem_map.1 hp with ⟨q, hq, rfl⟩
    show (if q.2 = values.length - 1 then index else q.2) < values.length - 1
    by_cases hq2 : q.2 = values.length - 1
    · rw [if_pos hq2]
      omega
    · rw [if_neg hq2]
      have := hb q hq
      omega
  · rw [if_neg hcond]
    push_neg at hcond
    intro p hp
    have h1 := hb p hp
    have h2 := hzero p hp
    omega

theorem compact_covered {km : List (K × Nat)} {values : List V}
    {index : Nat} (hnd : KeyNodup km) (hidx : index < values.length)
    (hcov : ∀ j < values.length, j ≠ index → ∃ p ∈ km, p.2 = j) :
    ∀ j < (swapRemove values index).length,
      ∃ p ∈ (if index ≠ (swapRemove values index).length then
          kmInsertAll km (keysAt km (swapRemove values index).length) index
        else km), p.2 = j := by
  have hne : values ≠ [] := by
    intro h
    rw [h] at hidx
    simp at hidx
  have hlen : (swapRemove values index).length = values.length - 1 :=
    length_swapRemove index hne
  rw [hlen]
  by_cases hcond : index ≠ values.length - 1
  · rw [if_pos hcond, repoint_eq_map index hnd]
    intro j hj
    by_cases hji : j = index
    · obtain ⟨q, hq, hq2⟩ :=
        hcov (values.length - 1) (by omega) (fun h => hcond h.symm)
      refine ⟨(q.1, if q.2 = values.length - 1 then index else q.2),
        List.mem_map_of_mem _ hq, ?_⟩
      show (if q.2 = values.length - 1 then index else q.2) = j
      rw [if_pos hq2]
      exact hji.symm
    · obtain ⟨q, hq, hq2⟩ := hcov j (by omega) hji
      refine ⟨(q.1, if q.2 = values.length - 1 then index else q.2),
        List.mem_map_of_mem _ hq, ?_⟩
      have hq2' : q.2 ≠ values.length - 1 := by omega
      show (if q.2 = values.length - 1 then index else q.2) = j
      rw [if_neg hq2']
      exact hq2
  · rw [if_neg hcond]
    push_neg at hcond
    intro j hj
    exact hcov j (by omega) (by omega)

/-- Value-level effect of the compaction on a surviving key: its slot is
renamed (old last slot → `index`) but keeps looking up the same value. -/
theorem compact_get {km : List (K × Nat)} {values : List V} {index : Nat}
    (hnd : KeyNodup km) (hb : ∀ p ∈ km, p.2 < values.length)
    (hidx : index < values.length) (hzero : ∀ p ∈ km, p.2 ≠ index)
    {k : K} {j : Nat} (hget : kmGet km k = some j) :
    kmGet (if index ≠ (swapRemove values index).length then
        kmInsertAll km (keysAt km (swapRemove values index).length) index
      else km) k
      = some (if j = values.length - 1 then index else j)
    ∧ (swapRemove values index)[if j = values.length - 1 then index
        else j]? = values[j]? := by
  have hmem := mem_of_kmGet_eq_some hget
  have hjlt : j < values.length := hb _ hmem
  have hjne : j ≠ index := hzero _ hmem
  constructor
  · rw [compact_kmGet hnd hidx hzero k, hget]
    rfl
  · by_cases hjl : j = values.length - 1
    · have hidx' : index < values.length - 1 := by omega
      rw [if_pos hjl,
        getElem?_swapRemove hidx (by omega), if_pos rfl, hjl]
    · have hjlt' : j < values.length - 1 := by omega
      rw [if_neg hjl,
        getElem?_swapRemove hidx (by omega), if_neg hjne]

end CompactLemmas

/-! ## Preservation of well-formedness by the public operations -/

section Preservation

variable [DecidableEq K]

theorem insert_wf {m : MultiKeyMap K V} (k : K) (v : V)
    (hnd : KeyNodup m.key_map) (hb : InBounds m) :
    KeyNodup (m.insert k v).key_map ∧ InBounds (m.insert k v) := by
  refine ⟨keyNodup_kmInsert k m.values.length hnd, ?_⟩
  intro p hp
  simp only [MultiKeyMap.insert, List.length_append, List.length_cons,
    List.length_nil]
  rcases mem_of_mem_kmInsert hp with rfl | h
  · omega
  · have := hb p h
    omega

theorem insert_covered {m : MultiKeyMap K V} {k : K} (v : V)
    (hfresh : kmGet m.key_map k = none) (hcov : Covered m) :
    Covered (m.insert k v) := by
  intro i hi
  simp only [MultiKeyMap.insert, List.length_append, List.length_cons,
    List.length_nil] at hi
  have hkm : (m.insert k v).key_map = m.key_map ++ [(k, m.values.length)] := by
    simp [MultiKeyMap.insert, kmInsert_of_kmGet_none _ hfresh]
  rw [hkm]
  by_cases hil : i < m.values.length
  · obtain ⟨p, hp, hpi⟩ := hcov i hil
    exact ⟨p, List.mem_append_left _ hp, hpi⟩
  · have hie : i = m.values.length := by omega
    refine ⟨(k, m.values.length), List.mem_append_right _ ?_, hie.symm⟩
    exact List.mem_singleton_self _

theorem insert_alias_wf {m : MultiKeyMap K V} (k al : K)
    (hnd : KeyNodup m.key_map) (hb : InBounds m) :
    KeyNodup (m.insert_alias k al).1.key_map
      ∧ InBounds (m.insert_alias k al).1 := by
  by_cases hk : k = al
  · subst hk
    rw [insert_alias_self]
    exact ⟨hnd, hb⟩
  · cases hget : kmGet m.key_map k with
    | none =>
        rw [insert_alias_none al hget]
        exact ⟨hnd, hb⟩
    | some index =>
        rw [insert_alias_some hk hget]
        refine ⟨keyNodup_kmInsert al index hnd, ?_⟩
        intro p hp
        rcases mem_of_mem_kmInsert hp with rfl | h
        · exact hb (k, index) (mem_of_kmGet_eq_some hget)
        · exact hb p h

theorem insert_alias_covered {m : MultiKeyMap K V} (k : K) {al : K}
    (hfresh : kmGet m.key_map al = none) (hcov : Covered m) :
    Covered (m.insert_alias k al).1 := by
  by_cases hk : k = al
  · subst hk
    rw [insert_alias_self]
    exact hcov
  · cases hget : kmGet m.key_map k with
    | none =>
        rw [insert_alias_none al hget]
        exact hcov
    | some index =>
        rw [insert_alias_some hk hget]
        intro i hi
        obtain ⟨p, hp, hpi⟩ := hcov i hi
        rw [kmInsert_of_kmGet_none index hfresh]
        exact ⟨p, List.mem_append_left _ hp, hpi⟩

theorem mem_kmErase_of_slot_ne {m : List (K × Nat)} {al : K} {index : Nat}
    (hnd : KeyNodup m) (hget : kmGet m al = some index) {p : K × Nat}
    (hp : p ∈ m) (hpi : p.2 ≠ index) : p ∈ kmErase m al := by
  rw [kmErase_eq_filter al hnd]
  refine List.mem_filter.2 ⟨hp, ?_⟩
  simp only [ne_eq, decide_eq_true_eq]
  intro hpal
  have h' : (m.map Prod.fst).Nodup := hnd
  have hpe : p = (al, index) :=
    List.inj_on_of_nodup_map h' hp (mem_of_kmGet_eq_some hget) hpal
  exact hpi (by rw [hpe])

theorem remove_alias_wf {m : MultiKeyMap K V} (al : K)
    (hnd : KeyNodup m.key_map) (hb : InBounds m) :
    KeyNodup (m.remove_alias al).1.key_map
      ∧ InBounds (m.remove_alias al).1 := by
  cases hget : kmGet m.key_map al with
  | none =>
      rw [remove_alias_none hget]
      exact ⟨hnd, hb⟩
  | some index =>
      have hnd' : KeyNodup (kmErase m.key_map al) := keyNodup_kmErase al hnd
      have hb' : ∀ p ∈ kmErase m.key_map al, p.2 < m.values.length :=
        fun p hp => hb p ((kmErase_sublist _ _).subset hp)
      have hidx : index < m.values.length := hb _ (mem_of_kmGet_eq_some hget)
      by_cases hc : count_references (kmErase m.key_map al) index = 0
      · rw [remove_alias_zero hget hc]
        have hzero : ∀ p ∈ kmErase m.key_map al, p.2 ≠ index :=
          count_references_eq_zero_iff.1 hc
        exact ⟨compact_keyNodup hnd', compact_inBounds hnd' hb' hidx hzero⟩
      · rw [remove_alias_pos hget hc]
        exact ⟨hnd', hb'⟩

theorem remove_alias_covered {m : MultiKeyMap K V} (al : K)
    (hnd : KeyNodup m.key_map) (hb : InBounds m) (hcov : Covered m) :
    Covered (m.remove_alias al).1 := by
  cases hget : kmGet m.key_map al with
  | none =>
      rw [remove_alias_none hget]
      exact hcov
  | some index =>
      have hnd' : KeyNodup (kmErase m.key_map al) := keyNodup_kmErase al hnd
      have hidx : index < m.values.length := hb _ (mem_of_kmGet_eq_some hget)
      by_cases hc : count_references (kmErase m.key_map al) index = 0
      · rw [remove_alias_zero hget hc]
        refine compact_covered hnd' hidx ?_
        intro j hj hji
        obtain ⟨p, hp, hpi⟩ := hcov j hj
        exact ⟨p, mem_kmErase_of_slot_ne hnd hget hp (by omega), hpi⟩
      · rw [remove_alias_pos hget hc]
        intro j hj
        by_cases hji : j = index
        · subst hji
          obtain ⟨p, hp, hpi⟩ :=
            one_le_count_references_iff.1 (Nat.one_le_iff_ne_zero.2 hc)
          exact ⟨p, hp, hpi⟩
        · obtain ⟨p, hp, hpi⟩ := hcov j hj
          exact ⟨p, mem_kmErase_of_slot_ne hnd hget hp (by omega), hpi⟩

theorem remove_wf {m : MultiKeyMap K V} (k : K)
    (hnd : KeyNodup m.key_map) (hb : InBounds m) :
    KeyNodup (m.remove k).1.key_map ∧ InBounds (m.remove k).1 := by
  cases hget : kmGet m.key_map k with
  | none =>
      rw [remove_none hget]
      exact ⟨hnd, hb⟩
  | some index =>
      rw [remove_some hget]
      have hidx : index < m.values.length := hb _ (mem_of_kmGet_eq_some hget)
      have hfilter := kmEraseAll_keysAt_eq_filter (m := m.key_map) (i := index) hnd
      have hnd1 : KeyNodup (kmEraseAll m.key_map (keysAt m.key_map index)) := by
        rw [hfilter]
        exact keyNodup_filter _ hnd
      have hb1 : ∀ p ∈ kmEraseAll m.key_map (keysAt m.key_map index),
          p.2 < m.values.length := by
        rw [hfilter]
        exact fun p hp => hb p (List.mem_of_mem_filter hp)
      have hzero : ∀ p ∈ kmEraseAll m.key_map (keysAt m.key_map index),
          p.2 ≠ index := by
        rw [hfilter]
        intro p hp
        have := (List.mem_filter.1 hp).2
        simpa using this
      exact ⟨compact_keyNodup hnd1, compact_inBounds hnd1 hb1 hidx hzero⟩

theorem remove_covered {m : MultiKeyMap K V} (k : K)
    (hnd : KeyNodup m.key_map) (hb : InBounds m) (hcov : Covered m) :
    Covered (m.remove k).1 := by
  cases hget : kmGet m.key_map k with
  | none =>
      rw [remove_none hget]
      exact hcov
  | some index =>
      rw [remove_some hget]
      have hidx : index < m.values.length := hb _ (mem_of_kmGet_eq_some hget)
      have hfilter := kmEraseAll_keysAt_eq_filter (m := m.key_map) (i := index) hnd
      have hnd1 : KeyNodup (kmEraseAll m.key_map (keysAt m.key_map index)) := by
        rw [hfilter]
        exact keyNodup_filter _ hnd
      refine compact_covered hnd1 hidx ?_
      intro j hj hji
      obtain ⟨p, hp, hpi⟩ := hcov j hj
      refine ⟨p, ?_, hpi⟩
      rw [hfilter]
      refine List.mem_filter.2 ⟨hp, ?_⟩
      simp only [ne_eq, decide_eq_true_eq, hpi]
      exact hji

/-- Every store reachable through the public operations has a duplicate-free
index table with all slots in bounds. -/
theorem reachable_wf {m : MultiKeyMap K V} (h : Reachable m) :
    KeyNodup m.key_map ∧ InBounds m := by
  induction h with
  | new =>
      constructor
      · show (List.map Prod.fst []).Nodup
        simp
      · intro p hp
        simp [MultiKeyMap.new] at hp
  | insert k v _ ih => exact insert_wf k v ih.1 ih.2
  | insert_alias k al _ ih => exact insert_alias_wf k al ih.1 ih.2
  | remove_alias al _ ih => exact remove_alias_wf al ih.1 ih.2
  | remove k _ ih => exact remove_wf k ih.1 ih.2
  | clear _ _ =>
      constructor
      · show (List.map Prod.fst []).Nodup
        simp
      · intro p hp
        simp [MultiKeyMap.clear] at hp

/-- Under fresh-key discipline the store additionally keeps every slot
referenced. -/
theorem reachableFresh_wf {m : MultiKeyMap K V} (h : ReachableFresh m) :
    KeyNodup m.key_map ∧ InBounds m ∧ Covered m := by
  induction h with
  | new =>
      refine ⟨?_, ?_, ?_⟩
      · show (List.map Prod.fst []).Nodup
        simp
      · intro p hp
        simp [MultiKeyMap.new] at hp
      · intro i hi
        simp [MultiKeyMap.new] at hi
  | insert k v _ hfresh ih =>
      obtain ⟨h1, h2, h3⟩ := ih
      obtain ⟨h1', h2'⟩ := insert_wf k v h1 h2
      exact ⟨h1', h2', insert_covered v hfresh h3⟩
  | insert_alias k al _ hfresh ih =>
      obtain ⟨h1, h2, h3⟩ := ih
      obtain ⟨h1', h2'⟩ := insert_alias_wf k al h1 h2
      exact ⟨h1', h2', insert_alias_covered k hfresh h3⟩
  | remove_alias al _ ih =>
      obtain ⟨h1, h2, h3⟩ := ih
      obtain ⟨h1', h2'⟩ := remove_alias_wf al h1 h2
      exact ⟨h1', h2', remove_alias_covered al h1 h2 h3⟩
  | remove k _ ih =>
      obtain ⟨h1, h2, h3⟩ := ih
      obtain ⟨h1', h2'⟩ := remove_wf k h1 h2
      exact ⟨h1', h2', remove_covered k h1 h2 h3⟩

end Preservation

/-! ## Lookup behaviour of the removal operations -/

section RemovalLookup

variable [DecidableEq K]

theorem kmGet_kmErase_self {m : List (K × Nat)} (al : K)
    (hnd : KeyNodup m) : kmGet (kmErase m al) al = none := by
  rw [kmErase_eq_filter al hnd, kmGet_eq_none_iff]
  intro p hp
  have := (List.mem_filter.1 hp).2
  simpa using this

/-- `remove_alias` leaves every other key's lookup unchanged. -/
theorem remove_alias_get_ne {m : MultiKeyMap K V} {al : K} (k : K)
    (hnd : KeyNodup m.key_map) (hb : InBounds m) (hk : k ≠ al) :
    (m.remove_alias al).1.get k = m.get k := by
  cases hget : kmGet m.key_map al with
  | none => rw [remove_alias_none hget]
  | some index =>
      have hnd' : KeyNodup (kmErase m.key_map al) := keyNodup_kmErase al hnd
      have hb' : ∀ p ∈ kmErase m.key_map al, p.2 < m.values.length :=
        fun p hp => hb p ((kmErase_sublist _ _).subset hp)
      have hidx : index < m.values.length := hb _ (mem_of_kmGet_eq_some hget)
      have hkm : kmGet (kmErase m.key_map al) k = kmGet m.key_map k :=
        kmGet_kmErase_ne _ hk
      by_cases hc : count_references (kmErase m.key_map al) index = 0
      · rw [remove_alias_zero hget hc]
        have hzero : ∀ p ∈ kmErase m.key_map al, p.2 ≠ index :=
          count_references_eq_zero_iff.1 hc
        cases hget' : kmGet m.key_map k with
        | none =>
            have hnone : kmGet (kmErase m.key_map al) k = none :=
              hkm.trans hget'
            simp only [MultiKeyMap.get]
            rw [compact_kmGet hnd' hidx hzero k, hnone, hget']
            rfl
        | some j =>
            have hsome : kmGet (kmErase m.key_map al) k = some j :=
              hkm.trans hget'
            obtain ⟨h1, h2⟩ := compact_get hnd' hb' hidx hzero hsome
            simp only [MultiKeyMap.get]
            rw [h1, hget']
            simpa using h2
      · rw [remove_alias_pos hget hc]
        simp only [MultiKeyMap.get]
        rw [hkm]

/-- After `remove_alias`, the removed key is gone from the index table. -/
theorem remove_alias_kmGet_self {m : MultiKeyMap K V} {al : K} {index : Nat}
    (hnd : KeyNodup m.key_map) (hget : kmGet m.key_map al = some index) :
    kmGet (m.remove_alias al).1.key_map al = none := by
  have hself : kmGet (kmErase m.key_map al) al = none :=
    kmGet_kmErase_self al hnd
  by_cases hc : count_references (kmErase m.key_map al) index = 0
  · rw [remove_alias_zero hget hc]
    have hzero : ∀ p ∈ kmErase m.key_map al, p.2 ≠ index :=
      count_references_eq_zero_iff.1 hc
    show kmGet (if index ≠ (swapRemove m.values index).length then
        kmInsertAll (kmErase m.key_map al)
          (keysAt (kmErase m.key_map al) (swapRemove m.values index).length)
          index
      else kmErase m.key_map al) al = none
    by_cases hcond : index ≠ (swapRemove m.values index).length
    · rw [if_pos hcond,
        repoint_eq_map index (keyNodup_kmErase al hnd), kmGet_map_repoint,
        hself]
      rfl
    · rw [if_neg hcond]
      exact hself
  · rw [remove_alias_pos hget hc]
    exact hself

/-- `remove` erases every key of the removed slot from the index table. -/
theorem remove_kmGet_aliased {m : MultiKeyMap K V} {k k' : K} {index : Nat}
    (hnd : KeyNodup m.key_map) (hget : kmGet m.key_map k = some index)
    (hget' : kmGet m.key_map k' = some index) :
    kmGet (m.remove k).1.key_map k' = none := by
  rw [remove_some hget]
  have hfilter := kmEraseAll_keysAt_eq_filter (m := m.key_map) (i := index) hnd
  have hnone : kmGet (kmEraseAll m.key_map (keysAt m.key_map index)) k'
      = none := by
    rw [hfilter]
    exact kmGet_filter_of_not_pred hnd hget' (by simp)
  show kmGet (if index ≠ (swapRemove m.values index).length then
      kmInsertAll (kmEraseAll m.key_map (keysAt m.key_map index))
        (keysAt (kmEraseAll m.key_map (keysAt m.key_map index))
          (swapRemove m.values index).length)
        index
    else kmEraseAll m.key_map (keysAt m.key_map index)) k' = none
  by_cases hcond : index ≠ (swapRemove m.values index).length
  · have hnd1 : KeyNodup (kmEraseAll m.key_map (keysAt m.key_map index)) := by
      rw [hfilter]
      exact keyNodup_filter _ hnd
    rw [if_pos hcond, repoint_eq_map index hnd1, kmGet_map_repoint, hnone]
    rfl
  · rw [if_neg hcond]
    exact hnone

/-- `remove` leaves the lookup of keys of other slots unchanged. -/
theorem remove_get_other {m : MultiKeyMap K V} {k k' : K} {index j : Nat}
    (hnd : KeyNodup m.key_map) (hb : InBounds m)
    (hget : kmGet m.key_map k = some index)
    (hget' : kmGet m.key_map k' = some j) (hne : j ≠ index) :
    (m.remove k).1.get k' = m.get k' := by
  rw [remove_some hget]
  have hidx : index < m.values.length := hb _ (mem_of_kmGet_eq_some hget)
  have hfilter := kmEraseAll_keysAt_eq_filter (m := m.key_map) (i := index) hnd
  have hnd1 : KeyNodup (kmEraseAll m.key_map (keysAt m.key_map index)) := by
    rw [hfilter]
    exact keyNodup_filter _ hnd
  have hb1 : ∀ p ∈ kmEraseAll m.key_map (keysAt m.key_map index),
      p.2 < m.values.length := by
    rw [hfilter]
    exact fun p hp => hb p (List.mem_of_mem_filter hp)
  have hzero : ∀ p ∈ kmEraseAll m.key_map (keysAt m.key_map index),
      p.2 ≠ index := by
    rw [hfilter]
    intro p hp
    have := (List.mem_filter.1 hp).2
    simpa using this
  have hsome : kmGet (kmEraseAll m.key_map (keysAt m.key_map index)) k'
      = some j := by
    rw [hfilter]
    exact kmGet_filter_of_pred hnd hget' (by simp [hne])
  obtain ⟨h1, h2⟩ := compact_get hnd1 hb1 hidx hzero hsome
  simp only [MultiKeyMap.get]
  rw [h1, hget']
  simpa using h2

/-- `remove` on a key never makes an absent key appear. -/
theorem remove_kmGet_none {m : MultiKeyMap K V} {k k' : K} {index : Nat}
    (hnd : KeyNodup m.key_map) (hget : kmGet m.key_map k = some index)
    (hget' : kmGet m.key_map k' = none) :
    kmGet (m.remove k).1.key_map k' = none := by
  rw [remove_some hget]
  have hfilter := kmEraseAll_keysAt_eq_filter (m := m.key_map) (i := index) hnd
  have hnone : kmGet (kmEraseAll m.key_map (keysAt m.key_map index)) k'
      = none := by
    rw [hfilter]
    exact kmGet_filter_of_none _ hget'
  show kmGet (if index ≠ (swapRemove m.values index).length then
      kmInsertAll (kmEraseAll m.key_map (keysAt m.key_map index))
        (keysAt (kmEraseAll m.key_map (keysAt m.key_map index))
          (swapRemove m.values index).length)
        index
    else kmEraseAll m.key_map (keysAt m.key_map index)) k' = none
  by_cases hcond : index ≠ (swapRemove m.values index).length
  · have hnd1 : KeyNodup (kmEraseAll m.key_map (keysAt m.key_map index)) := by
      rw [hfilter]
      exact keyNodup_filter _ hnd
    rw [if_pos hcond, repoint_eq_map index hnd1, kmGet_map_repoint, hnone]
    rfl
  · rw [if_neg hcond]
    exact hnone

end RemovalLookup

/-! ## The equality predicate -/

section BeqLemmas

variable [DecidableEq K] [DecidableEq V]

/-- Logical reading of the `PartialEq` implementation: equal value
counts, and every entry of the left store matched (with an equal value)
in the right store. -/
theorem beq_eq_true_iff {a b : MultiKeyMap K V} (hnd : KeyNodup a.key_map) :
    a.beq b = true ↔
      a.values.length = b.values.length ∧
        ∀ k i, kmGet a.key_map k = some i →
          ∃ j x y, kmGet b.key_map k = some j ∧ a.values[i]? = some x ∧
            b.values[j]? = some y ∧ x = y := by
  unfold MultiKeyMap.beq
  by_cases hlen : a.values.length ≠ b.values.length
  · rw [if_pos hlen]
    constructor
    · intro h
      exact absurd h (by simp)
    · intro h
      exact absurd h.1 hlen
  · rw [if_neg hlen, List.all_eq_true]
    push_neg at hlen
    constructor
    · intro hall
      refine ⟨hlen, fun k i hget => ?_⟩
      have h1 := hall (k, i) (mem_of_kmGet_eq_some hget)
      cases hgb : kmGet b.key_map k with
      | none => simp [hgb] at h1
      | some j =>
          simp only [hgb] at h1
          cases hx : a.values[i]? with
          | none => simp [hx] at h1
          | some x =>
              cases hy : b.values[j]? with
              | none => simp [hx, hy] at h1
              | some y =>
                  simp only [hx, hy, decide_eq_true_eq] at h1
                  exact ⟨j, x, y, rfl, rfl, hy, h1⟩
    · rintro ⟨hlen', hall⟩ p hp
      obtain ⟨j, x, y, hj, hx, hy, hxy⟩ :=
        hall p.1 p.2 (kmGet_eq_some_of_mem hp hnd)
      simp [hj, hx, hy, hxy]

end BeqLemmas

/-! ## Lookup behaviour of `insert` -/

section InsertLookup

variable [DecidableEq K]

theorem get_insert_self (m : MultiKeyMap K V) (k : K) (v : V) :
    (m.insert k v).get k = some v := by
  simp only [MultiKeyMap.get, MultiKeyMap.insert, kmGet_kmInsert_self]
  simp [List.getElem?_concat_length]

theorem get_insert_ne (m : MultiKeyMap K V) {k k' : K} (v : V)
    (hb : InBounds m) (hne : k' ≠ k) :
    (m.insert k v).get k' = m.get k' := by
  simp only [MultiKeyMap.get, MultiKeyMap.insert]
  rw [kmGet_kmInsert_ne m.key_map m.values.length hne]
  cases hget : kmGet m.key_map k' with
  | none => rfl
  | some j =>
      have hj : j < m.values.length := hb _ (mem_of_kmGet_eq_some hget)
      show (m.values ++ [v])[j]? = m.values[j]?
      rw [List.getElem?_append]
      simp [hj]

end InsertLookup

/-! ## The claims -/

/-- Claim C6: for every store, key `k` and value `v`, `insert(k, v)`
followed by `get(k)` returns `Some(v)`. -/
theorem C6_insert_get_roundtrip {K V : Type} [DecidableEq K]
    (m : MultiKeyMap K V) (k : K) (v : V) :
    (m.insert k v).get k = some v :=
  get_insert_self m k v

/-- Claim C7: when `insert(key, value)` is called on a key that already
exists, a fresh slot is still created (`len` grows by one, the dense
array is extended by `value`), the key is re-pointed to the fresh slot,
the old slot's value persists in the array, and every other key's lookup
is unchanged. -/
theorem C7_insert_overwrite {K V : Type} [DecidableEq K]
    (m : MultiKeyMap K V) (k : K) (v : V) {i : Nat}
    (hex : kmGet m.key_map k = some i) (hb : InBounds m) :
    (m.insert k v).len = m.len + 1 ∧
    (m.insert k v).values = m.values ++ [v] ∧
    (m.insert k v).values[i]? = m.values[i]? ∧
    kmGet (m.insert k v).key_map k = some m.values.length ∧
    (m.insert k v).get k = some v ∧
    ∀ k', k' ≠ k → (m.insert k v).get k' = m.get k' := by
  have hi : i < m.values.length := hb _ (mem_of_kmGet_eq_some hex)
  refine ⟨?_, rfl, ?_, kmGet_kmInsert_self m.key_map k m.values.length,
    get_insert_self m k v, fun k' hk' => get_insert_ne m v hb hk'⟩
  · simp [MultiKeyMap.len, MultiKeyMap.insert]
  · show (m.values ++ [v])[i]? = m.values[i]?
    rw [List.getElem?_append]
    simp [hi]

/-- Claim C7 witness: overwriting key 1 in the one-entry store. -/
theorem C7_insert_overwrite_witness :
    ((MultiKeyMap.new.insert 1 10 : MultiKeyMap Nat Nat).insert 1 20).len
        = (MultiKeyMap.new.insert 1 10 : MultiKeyMap Nat Nat).len + 1 ∧
    ((MultiKeyMap.new.insert 1 10 : MultiKeyMap Nat Nat).insert 1 20).values[0]?
        = (MultiKeyMap.new.insert 1 10 : MultiKeyMap Nat Nat).values[0]? := by
  have h := C7_insert_overwrite
    (MultiKeyMap.new.insert 1 10 : MultiKeyMap Nat Nat) 1 20
    (i := 0) (by decide) (by decide)
  exact ⟨h.1, h.2.2.1⟩

/-- Claim C2: `insert_alias(existing_key, new_key)` returns `None` on
self-aliasing or a missing source key (leaving the store unchanged);
otherwise it maps the new key to the source key's slot and returns the
resulting reference count of that slot. -/
theorem C2_insert_alias_spec {K V : Type} [DecidableEq K]
    (m : MultiKeyMap K V) (k al : K) :
    (k = al → m.insert_alias k al = (m, none)) ∧
    (kmGet m.key_map k = none → m.insert_alias k al = (m, none)) ∧
    (∀ i, k ≠ al → kmGet m.key_map k = some i →
      kmGet (m.insert_alias k al).1.key_map al = some i ∧
      (m.insert_alias k al).1.values = m.values ∧
      (m.insert_alias k al).2
        = some (count_references (m.insert_alias k al).1.key_map i)) := by
  refine ⟨?_, fun h => insert_alias_none al h, ?_⟩
  · intro h
    subst h
    exact insert_alias_self m k
  · intro i hne hget
    rw [insert_alias_some hne hget]
    exact ⟨kmGet_kmInsert_self m.key_map al i, rfl, rfl⟩

/-- Claim C2 witness: aliasing key 1 with key 2 in the one-entry store. -/
theorem C2_insert_alias_spec_witness :
    kmGet ((MultiKeyMap.new.insert 1 10 : MultiKeyMap Nat Nat).insert_alias
        1 2).1.key_map 2 = some 0 ∧
    ((MultiKeyMap.new.insert 1 10 : MultiKeyMap Nat Nat).insert_alias 1 2).2
      = some (count_references
          ((MultiKeyMap.new.insert 1 10 : MultiKeyMap Nat Nat).insert_alias
            1 2).1.key_map 0) := by
  have h := (C2_insert_alias_spec
    (MultiKeyMap.new.insert 1 10 : MultiKeyMap Nat Nat) 1 2).2.2 0
    (by decide) (by decide)
  exact ⟨h.1, h.2.2⟩

/-- Claim C8: every lookup or mutation on a missing key answers `None`
and leaves the store unchanged — no panic — and the self-alias rejection
of `insert_alias` is reported through the very same `(store, None)`
result, so the caller cannot tell the two cases apart. -/
theorem C8_missing_key_none {K V : Type} [DecidableEq K]
    (m : MultiKeyMap K V) (k al : K) (h : kmGet m.key_map k = none) :
    m.get k = none ∧ m.get_mut k = none ∧ m.aliases k = none ∧
    m.insert_alias k al = (m, none) ∧ m.remove_alias k = (m, none) ∧
    m.remove k = (m, none) ∧ m.insert_alias al al = (m, none) := by
  refine ⟨?_, ?_, ?_, insert_alias_none al h, remove_alias_none h,
    remove_none h, insert_alias_self m al⟩
  · simp [MultiKeyMap.get, h]
  · simp [MultiKeyMap.get_mut, h]
  · simp [MultiKeyMap.aliases, h]

/-- Claim C8 witness: key 5 is absent from the one-entry store. -/
theorem C8_missing_key_none_witness :
    (MultiKeyMap.new.insert 1 10 : MultiKeyMap Nat Nat).get 5 = none ∧
    (MultiKeyMap.new.insert 1 10 : MultiKeyMap Nat Nat).get_mut 5 = none ∧
    (MultiKeyMap.new.insert 1 10 : MultiKeyMap Nat Nat).aliases 5 = none ∧
    (MultiKeyMap.new.insert 1 10 : MultiKeyMap Nat Nat).insert_alias 5 7
      = ((MultiKeyMap.new.insert 1 10 : MultiKeyMap Nat Nat), none) ∧
    (MultiKeyMap.new.insert 1 10 : MultiKeyMap Nat Nat).remove_alias 5
      = ((MultiKeyMap.new.insert 1 10 : MultiKeyMap Nat Nat), none) ∧
    (MultiKeyMap.new.insert 1 10 : MultiKeyMap Nat Nat).remove 5
      = ((MultiKeyMap.new.insert 1 10 : MultiKeyMap Nat Nat), none) ∧
    (MultiKeyMap.new.insert 1 10 : MultiKeyMap Nat Nat).insert_alias 7 7
      = ((MultiKeyMap.new.insert 1 10 : MultiKeyMap Nat Nat), none) :=
  C8_missing_key_none (MultiKeyMap.new.insert 1 10 : MultiKeyMap Nat Nat)
    5 7 (by decide)

/-- Claim C9: in every store reachable from `new()` through the public
operations, each index-table entry points below `len()`, and applying
`insert`, `insert_alias`, `remove_alias`, `remove` or `clear` preserves
this. -/
theorem C9_indices_in_bounds {K V : Type} [DecidableEq K]
    {m : MultiKeyMap K V} (h : Reachable m) :
    (∀ p ∈ m.key_map, p.2 < m.len) ∧
    (∀ (k : K) (v : V), ∀ p ∈ (m.insert k v).key_map,
      p.2 < (m.insert k v).len) ∧
    (∀ k al : K, ∀ p ∈ (m.insert_alias k al).1.key_map,
      p.2 < (m.insert_alias k al).1.len) ∧
    (∀ al : K, ∀ p ∈ (m.remove_alias al).1.key_map,
      p.2 < (m.remove_alias al).1.len) ∧
    (∀ k : K, ∀ p ∈ (m.remove k).1.key_map, p.2 < (m.remove k).1.len) ∧
    (∀ p ∈ m.clear.key_map, p.2 < m.clear.len) := by
  refine ⟨(reachable_wf h).2, fun k v => ?_, fun k al => ?_, fun al => ?_,
    fun k => ?_, ?_⟩
  · exact (reachable_wf (Reachable.insert k v h)).2
  · exact (reachable_wf (Reachable.insert_alias k al h)).2
  · exact (reachable_wf (Reachable.remove_alias al h)).2
  · exact (reachable_wf (Reachable.remove k h)).2
  · exact (reachable_wf (Reachable.clear h)).2

/-- Claim C9 witness: the single entry of the one-entry store points at
slot 0, below `len() = 1`. -/
theorem C9_indices_in_bounds_witness :
    (0 : Nat) < (MultiKeyMap.new.insert 1 10 : MultiKeyMap Nat Nat).len := by
  have h := C9_indices_in_bounds
    (Reachable.insert 1 10 (Reachable.new (K := Nat) (V := Nat)))
  exact h.1 (1, 0) (by decide)

/-- Claim C1 counterexample: the sequence `insert(1, 10); insert(1, 20)`
is a sequence of the four listed operations, yet afterwards `len()` is 2
while only one slot is referenced, and the live slot 0 has reference
count 0. -/
theorem C1_counterexample :
    ((MultiKeyMap.new.insert 1 10 : MultiKeyMap Nat Nat).insert 1 20).len
        = 2 ∧
    ((((MultiKeyMap.new.insert 1 10 :
        MultiKeyMap Nat Nat).insert 1 20).key_map.map Prod.snd).toFinset).card
        = 1 ∧
    count_references
        ((MultiKeyMap.new.insert 1 10 : MultiKeyMap Nat Nat).insert
          1 20).key_map 0 = 0 := by
  decide

/-- Claim C1 (amended): for every sequence of `insert`, `insert_alias`,
`remove_alias` and `remove` calls from a new store in which `insert` and
`insert_alias` are only given keys not already present, after each
completed call `len()` equals the number of distinct live slots and
every live slot has reference count at least 1. -/
theorem C1_len_live_slots {K V : Type} [DecidableEq K]
    {m : MultiKeyMap K V} (h : ReachableFresh m) :
    ((m.key_map.map Prod.snd).toFinset).card = m.len ∧
    ∀ i < m.len, 1 ≤ count_references m.key_map i := by
  obtain ⟨hnd, hb, hcov⟩ := reachableFresh_wf h
  constructor
  · have hset : (m.key_map.map Prod.snd).toFinset
        = Finset.range m.values.length := by
      ext i
      simp only [List.mem_toFinset, List.mem_map, Finset.mem_range]
      constructor
      · rintro ⟨p, hp, rfl⟩
        exact hb p hp
      · intro hi
        obtain ⟨p, hp, hpi⟩ := hcov i hi
        exact ⟨p, hp, hpi⟩
    rw [hset, Finset.card_range]
    rfl
  · intro i hi
    rw [one_le_count_references_iff]
    exact hcov i hi

/-- Claim C1 witness: a fresh-key trace of one insert and one alias. -/
theorem C1_len_live_slots_witness :
    ((((MultiKeyMap.new.insert 1 10 :
        MultiKeyMap Nat Nat).insert_alias 1 2).1.key_map.map
          Prod.snd).toFinset).card
      = ((MultiKeyMap.new.insert 1 10 :
          MultiKeyMap Nat Nat).insert_alias 1 2).1.len ∧
    1 ≤ count_references
        ((MultiKeyMap.new.insert 1 10 :
          MultiKeyMap Nat Nat).insert_alias 1 2).1.key_map 0 := by
  have h := C1_len_live_slots
    (ReachableFresh.insert_alias 1 2
      (ReachableFresh.insert 1 10 ReachableFresh.new (by decide))
      (by decide))
  exact ⟨h.1, h.2 0 (by decide)⟩

/-- Claim C3: `remove_alias(key)` returns `None` on a missing key;
otherwise it removes `key` from the index table and returns the number
of remaining keys of its slot; at count zero the value is removed by
swap-with-last and the keys of the old last slot are re-pointed to the
freed index, so `Some(0)` is returned exactly when a value was
destroyed.  In particular (second conjunct, with three keys aliasing one
value) removing all keys but the last leaves the value retrievable by
the remaining key, and removing that one destroys the value. -/
theorem C3_remove_alias_spec :
    (∀ (K V : Type) [DecidableEq K] (m : MultiKeyMap K V) (al : K),
      KeyNodup m.key_map → InBounds m →
      (kmGet m.key_map al = none → m.remove_alias al = (m, none)) ∧
      (∀ index, kmGet m.key_map al = some index →
        (m.remove_alias al).2
            = some (count_references (kmErase m.key_map al) index) ∧
        kmGet (m.remove_alias al).1.key_map al = none ∧
        (∀ k', k' ≠ al → (m.remove_alias al).1.get k' = m.get k') ∧
        ((m.remove_alias al).2 = some 0 ↔
          (m.remove_alias al).1.values.length + 1 = m.values.length) ∧
        (count_references (kmErase m.key_map al) index = 0 →
          (m.remove_alias al).1.values = swapRemove m.values index ∧
          ∀ k', kmGet (kmErase m.key_map al) k'
              = some (m.values.length - 1) →
            kmGet (m.remove_alias al).1.key_map k' = some index))) ∧
    (let s3 := (((MultiKeyMap.new.insert 1 10 :
        MultiKeyMap Nat Nat).insert_alias 1 2).1.insert_alias 1 3).1
     (s3.remove_alias 1).2 = some 2 ∧
     ((s3.remove_alias 1).1.remove_alias 2).2 = some 1 ∧
     ((s3.remove_alias 1).1.remove_alias 2).1.get 3 = some 10 ∧
     ((s3.remove_alias 1).1.remove_alias 2).1.get 1 = none ∧
     ((s3.remove_alias 1).1.remove_alias 2).1.get 2 = none ∧
     (((s3.remove_alias 1).1.remove_alias 2).1.remove_alias 3).2
        = some 0 ∧
     (((s3.remove_alias 1).1.remove_alias 2).1.remove_alias 3).1.get 3
        = none ∧
     (((s3.remove_alias 1).1.remove_alias 2).1.remove_alias 3).1.get 1
        = none ∧
     (((s3.remove_alias 1).1.remove_alias 2).1.remove_alias 3).1.len
        = 0) := by
  constructor
  · intro K V _ m al hnd hb
    refine ⟨remove_alias_none, fun index hget => ?_⟩
    have hnd' : KeyNodup (kmErase m.key_map al) := keyNodup_kmErase al hnd
    have hidx : index < m.values.length := hb _ (mem_of_kmGet_eq_some hget)
    have hne : m.values ≠ [] := by
      intro hnil
      rw [hnil] at hidx
      simp at hidx
    refine ⟨?_, remove_alias_kmGet_self hnd hget,
      fun k' hk' => remove_alias_get_ne k' hnd hb hk', ?_, ?_⟩
    · by_cases hc : count_references (kmErase m.key_map al) index = 0
      · rw [remove_alias_zero hget hc, hc]
      · rw [remove_alias_pos hget hc]
    · by_cases hc : count_references (kmErase m.key_map al) index = 0
      · rw [remove_alias_zero hget hc]
        refine iff_of_true rfl ?_
        show (swapRemove m.values index).length + 1 = m.values.length
        rw [length_swapRemove index hne]
        omega
      · rw [remove_alias_pos hget hc]
        constructor
        · intro h'
          exact absurd (Option.some.inj h') hc
        · intro h'
          have h'' : m.values.length + 1 = m.values.length := h'
          exact absurd h'' (by omega)
    · intro hc
      have hzero : ∀ p ∈ kmErase m.key_map al, p.2 ≠ index :=
        count_references_eq_zero_iff.1 hc
      refine ⟨by rw [remove_alias_zero hget hc], ?_⟩
      intro k' hget'
      rw [remove_alias_zero hget hc]
      show kmGet (if index ≠ (swapRemove m.values index).length then
          kmInsertAll (kmErase m.key_map al)
            (keysAt (kmErase m.key_map al)
              (swapRemove m.values index).length)
            index
        else kmErase m.key_map al) k' = some index
      rw [compact_kmGet hnd' hidx hzero k', hget']
      simp
  · decide

/-- Claim C3 witness: removing the alias `2` of the two-key slot. -/
theorem C3_remove_alias_spec_witness :
    (((MultiKeyMap.new.insert 1 10 :
        MultiKeyMap Nat Nat).insert_alias 1 2).1.remove_alias 2).2
      = some (count_references
          (kmErase ((MultiKeyMap.new.insert 1 10 :
            MultiKeyMap Nat Nat).insert_alias 1 2).1.key_map 2) 0) ∧
    kmGet ((((MultiKeyMap.new.insert 1 10 :
        MultiKeyMap Nat Nat).insert_alias 1 2).1.remove_alias
          2).1.key_map) 2 = none := by
  have h := (C3_remove_alias_spec.1 Nat Nat
    ((MultiKeyMap.new.insert 1 10 : MultiKeyMap Nat Nat).insert_alias 1 2).1
    2 (by decide) (by decide)).2 0 (by decide)
  exact ⟨h.1, h.2.1⟩

/-- Claim C4: `remove(key)` returns `None` on a missing key; otherwise
it returns the value at the key's slot, drops every key of that slot
from the index table regardless of reference count, compacts by
swap-with-last and re-points the keys of the former last slot, leaving
all other keys' lookups unchanged.  The second conjunct is the spec's
scenario: after `insert(1, 10)` and aliases 2 and 3, `remove(1)`
returns `Some(10)` and keys 2 and 3 resolve to `None`. -/
theorem C4_remove_spec :
    (∀ (K V : Type) [DecidableEq K] (m : MultiKeyMap K V) (k : K),
      KeyNodup m.key_map → InBounds m →
      (kmGet m.key_map k = none → m.remove k = (m, none)) ∧
      (∀ index, kmGet m.key_map k = some index →
        (∃ v, m.values[index]? = some v ∧ (m.remove k).2 = some v) ∧
        (m.remove k).1.values = swapRemove m.values index ∧
        (m.remove k).1.values.length + 1 = m.values.length ∧
        (∀ k', kmGet m.key_map k' = some index →
          (m.remove k).1.get k' = none) ∧
        (∀ k', kmGet (kmEraseAll m.key_map (keysAt m.key_map index)) k'
            = some (m.values.length - 1) →
          kmGet (m.remove k).1.key_map k' = some index) ∧
        (∀ k' j, kmGet m.key_map k' = some j → j ≠ index →
          (m.remove k).1.get k' = m.get k'))) ∧
    (let s3 := (((MultiKeyMap.new.insert 1 10 :
        MultiKeyMap Nat Nat).insert_alias 1 2).1.insert_alias 1 3).1
     (s3.remove 1).2 = some 10 ∧
     (s3.remove 1).1.get 1 = none ∧
     (s3.remove 1).1.get 2 = none ∧
     (s3.remove 1).1.get 3 = none) := by
  constructor
  · intro K V _ m k hnd hb
    refine ⟨remove_none, fun index hget => ?_⟩
    have hidx : index < m.values.length := hb _ (mem_of_kmGet_eq_some hget)
    have hne : m.values ≠ [] := by
      intro hnil
      rw [hnil] at hidx
      simp at hidx
    have hfilter :=
      kmEraseAll_keysAt_eq_filter (m := m.key_map) (i := index) hnd
    have hnd1 : KeyNodup (kmEraseAll m.key_map (keysAt m.key_map index)) := by
      rw [hfilter]
      exact keyNodup_filter _ hnd
    have hzero : ∀ p ∈ kmEraseAll m.key_map (keysAt m.key_map index),
        p.2 ≠ index := by
      rw [hfilter]
      intro p hp
      have := (List.mem_filter.1 hp).2
      simpa using this
    refine ⟨⟨_, List.getElem?_eq_getElem hidx, ?_⟩,
      by rw [remove_some hget], ?_, ?_, ?_, ?_⟩
    · rw [remove_some hget]
      exact List.getElem?_eq_getElem hidx
    · rw [remove_some hget]
      show (swapRemove m.values index).length + 1 = m.values.length
      rw [length_swapRemove index hne]
      omega
    · intro k' hk'
      simp only [MultiKeyMap.get]
      rw [remove_kmGet_aliased hnd hget hk']
      rfl
    · intro k' hget'
      rw [remove_some hget]
      show kmGet (if index ≠ (swapRemove m.values index).length then
          kmInsertAll (kmEraseAll m.key_map (keysAt m.key_map index))
            (keysAt (kmEraseAll m.key_map (keysAt m.key_map index))
              (swapRemove m.values index).length)
            index
        else kmEraseAll m.key_map (keysAt m.key_map index)) k' = some index
      rw [compact_kmGet hnd1 hidx hzero k', hget']
      simp
    · intro k' j hget' hne'
      exact remove_get_other hnd hb hget hget' hne'
  · decide

/-- Claim C4 witness: removing key 1 of the three-key slot. -/
theorem C4_remove_spec_witness :
    ((((MultiKeyMap.new.insert 1 10 :
        MultiKeyMap Nat Nat).insert_alias 1 2).1.insert_alias
          1 3).1.remove 1).2 = some 10 ∧
    ((((MultiKeyMap.new.insert 1 10 :
        MultiKeyMap Nat Nat).insert_alias 1 2).1.insert_alias
          1 3).1.remove 1).1.get 2 = none := by
  have h := (C4_remove_spec.1 Nat Nat
    (((MultiKeyMap.new.insert 1 10 :
      MultiKeyMap Nat Nat).insert_alias 1 2).1.insert_alias 1 3).1
    1 (by decide) (by decide)).2 0 (by decide)
  obtain ⟨⟨v, hv, hv2⟩, _, _, h4, _, _⟩ := h
  refine ⟨?_, h4 2 (by decide)⟩
  have : v = 10 := by
    rw [show ((((MultiKeyMap.new.insert 1 10 :
      MultiKeyMap Nat Nat).insert_alias 1 2).1.insert_alias
        1 3).1.values[0]? = some 10) from by decide] at hv
    exact (Option.some.inj hv).symm
  rw [hv2, this]

/-- Claim C5: `a == b` holds iff the two stores hold the same number of
values and every key of `a`'s index table is present in `b` with an
equal value (the direction the code iterates). -/
theorem C5_eq_iff {K V : Type} [DecidableEq K] [DecidableEq V]
    (a b : MultiKeyMap K V) (hnd : KeyNodup a.key_map) :
    a.beq b = true ↔
      a.values.length = b.values.length ∧
        ∀ k i, kmGet a.key_map k = some i →
          ∃ j x y, kmGet b.key_map k = some j ∧ a.values[i]? = some x ∧
            b.values[j]? = some y ∧ x = y :=
  beq_eq_true_iff hnd

/-- Claim C5 witness: a one-key store and its two-key aliased variant
hold the same single value, and indeed compare equal left-to-right. -/
theorem C5_eq_iff_witness :
    (MultiKeyMap.new.insert 1 10 : MultiKeyMap Nat Nat).values.length
      = ((MultiKeyMap.new.insert 1 10 :
          MultiKeyMap Nat Nat).insert_alias 1 2).1.values.length := by
  have h := (C5_eq_iff (MultiKeyMap.new.insert 1 10 : MultiKeyMap Nat Nat)
    ((MultiKeyMap.new.insert 1 10 : MultiKeyMap Nat Nat).insert_alias 1 2).1
    (by decide)).mp (by decide)
  exact h.1

/-- Claim C10 counterexample: `{1 ↦ 10}` compares equal to the aliased
store `{1 ↦ 10, 2 ↦ 10}` (same single value), but not the other way
round, so `==` is not symmetric. -/
theorem C10_counterexample :
    MultiKeyMap.beq (MultiKeyMap.new.insert 1 10 : MultiKeyMap Nat Nat)
        ((MultiKeyMap.new.insert 1 10 :
          MultiKeyMap Nat Nat).insert_alias 1 2).1 = true ∧
    MultiKeyMap.beq
        ((MultiKeyMap.new.insert 1 10 :
          MultiKeyMap Nat Nat).insert_alias 1 2).1
        (MultiKeyMap.new.insert 1 10 : MultiKeyMap Nat Nat) = false := by
  decide

/-- Claim C10 (amended): `a == b` implies `b == a` for stores holding
the same key set. -/
theorem C10_eq_symm {K V : Type} [DecidableEq K] [DecidableEq V]
    {a b : MultiKeyMap K V} (hnda : KeyNodup a.key_map)
    (hndb : KeyNodup b.key_map)
    (hdom : ∀ k : K, (kmGet a.key_map k).isSome
      = (kmGet b.key_map k).isSome)
    (h : a.beq b = true) : b.beq a = true := by
  rw [beq_eq_true_iff hnda] at h
  rw [beq_eq_true_iff hndb]
  obtain ⟨hlen, hall⟩ := h
  refine ⟨hlen.symm, ?_⟩
  intro k j hgb
  have hsome : (kmGet a.key_map k).isSome = true := by
    rw [hdom k, hgb]
    rfl
  obtain ⟨i, hga⟩ := Option.isSome_iff_exists.1 hsome
  obtain ⟨j', x, y, hj', hx, hy, hxy⟩ := hall k i hga
  rw [hgb] at hj'
  injection hj' with hj''
  exact ⟨i, y, x, hga, hj'' ▸ hy, hx, hxy.symm⟩

/-- Claim C10 (amended) witness: symmetry on two identically built
stores. -/
theorem C10_eq_symm_witness :
    MultiKeyMap.beq (MultiKeyMap.new.insert 1 10 : MultiKeyMap Nat Nat)
      (MultiKeyMap.new.insert 1 10 : MultiKeyMap Nat Nat) = true :=
  C10_eq_symm (by decide) (by decide) (fun _ => rfl) (by decide)

end MultiKeyMapSpec
